import Mathlib

/-!
Verification of the engramic consolidation pipeline and its supporting
data model, as a shallow embedding in Lean 4.

Source files embedded:
* `src/engramic/application/consolidate/consolidate_service.py`
* `src/engramic/infrastructure/system/observation_system.py`
* `src/engramic/infrastructure/plugins/vector_db/chromadb/chromadb.py`
* `src/engramic/core/meta.py`

The core dataclasses `Index`, `Engram` and `Observation` (files
`core/index.py`, `core/engram.py`, `core/observation.py`) are not present in
the tree; they are modelled from the spec and from how the in-tree code
constructs and consumes them, as noted on each definition.

Python floats are modelled as rationals (`ℚ`); opaque generated uuids are
modelled as caller-supplied strings (or the empty string where the id is
never inspected).  Python dicts that the code iterates are modelled as
insertion-ordered association lists.
-/

namespace Engramic

/-- Modelled from the spec: `core/index.py` is not in the tree.  An Index is
"a textual lookup string paired with an embedding vector; carries its own id"
(spec §3).  The constructor calls in the tree pass `text` and `embedding`
positionally (`Index(indices[i], vec)`), with the generated `id` last; the
embedding is absent (`None`) until computed. -/
structure Index where
  text : String
  embedding : Option (List ℚ)
  id : String
deriving Repr, DecidableEq

/-- Modelled from the spec: `core/engram.py` is not in the tree.  Per spec §3
an Engram carries an opaque `id`, origin labels, textual `content`,
`is_native_source`, an optional grounding `context` map, integer `accuracy`
and `relevancy` scores, and, once enriched, a list of `Index`.
`ObservationSystem.merge_observation` (in the tree) reads the plural list
fields `source_ids` and `locations` of each engram dict, so those are
modelled as string lists.  The context map is iterated in insertion order by
`ConsolidateService._gen_indices`, so it is an ordered association list. -/
structure Engram where
  id : String
  source_ids : List String
  locations : List String
  content : String
  is_native_source : Bool
  context : Option (List (String × String))
  accuracy : Int
  relevancy : Int
  indices : Option (List Index)
deriving Repr, DecidableEq

/-- Embeds `Meta` from `core/meta.py`.  The dataclass field (and positional
constructor) order is `id, locations, source_ids, keywords, summary_initial,
summary_full`.  The file annotates `summary_full` as `str | None`, but every
use in the tree (`ConsolidateService._generate_summary_embeddings` reads
`.text` and assigns `.embedding`; `merge_observation` rebuilds it with
`Index(**...)`) treats it as an optional `Index`, so it is modelled as
`Option Index`. -/
structure Meta where
  id : String
  locations : List String
  source_ids : List String
  keywords : List String
  summary_initial : Option String
  summary_full : Option Index
deriving Repr, DecidableEq

/-- Modelled from the spec: `core/observation.py` is not in the tree.  Per
spec §3 an Observation is the bundle `id`, `source_id`, `meta`,
`engram_list`. -/
structure Observation where
  id : String
  source_id : String
  meta : Meta
  engram_list : List Engram
deriving Repr, DecidableEq

/-- Messages emitted by the consolidation pipeline, restricted to the topics
the embedded code publishes (`Service.Topic.*` payloads of
`consolidate_service.py`). -/
inductive Message where
  | engramCreated (source_id : String) (engram_id_array : List String)
  | indexCreated (source_id : String) (index_id_array : List String)
  | indexComplete (source_id : String) (engram_id : String) (index : List Index)
  | engramComplete (source_id : String) (engram_array : List Engram)
  | metaComplete (meta : Meta)
deriving Repr, DecidableEq

/-- Recognizer for `ENGRAM_COMPLETE` messages. -/
def Message.isEngramComplete : Message → Bool
  | .engramComplete _ _ => true
  | _ => false

/-- Recognizer for `META_COMPLETE` messages. -/
def Message.isMetaComplete : Message → Bool
  | .metaComplete _ => true
  | _ => false

/-- The in-flight `engram_builder` dict of `ConsolidateService`, modelled as
an insertion-ordered association list from engram id to engram. -/
abbrev Builder := List (String × Engram)

/-- First-match association-list lookup, i.e. Python `dict.get` on a map
whose keys are unique. -/
def lookupKey (k : String) : Builder → Option Engram
  | [] => none
  | p :: rest => if p.1 = k then some p.2 else lookupKey k rest

/-- Overwrite the value stored at key `k` (Python `dict[k].indices = ...`
mutates the engram object held at `k` in place; order of entries is
unchanged). -/
def setKey (k : String) (v : Engram) : Builder → Builder
  | [] => []
  | p :: rest => (if p.1 = k then (k, v) else p) :: setKey k v rest

/-- Python `del builder[k]` (keys are unique, so removing every pair with
key `k` agrees with deleting the one entry). -/
def eraseKey (k : String) (b : Builder) : Builder :=
  b.filter (fun p => p.1 != k)

/-! ## ConsolidateService, engram branch

The language-model plugin is modelled as a function `llm : Engram → List
String` returning the already-parsed `index_text_array` of its structured
JSON response for the prompt built from that engram, and the embedding
plugin as `embed : List String → List (List ℚ)` returning the
`embeddings_list` of `gen_embed` for a batch of strings. -/

/-- Error message of the engram-id collision `RuntimeError` in
`ConsolidateService.on_engrams`. -/
def collisionMsg : String :=
  "Engram ID Collision. During conslidation, two Engrams with the same IDs were detected."

/-- Embeds the registration loop of `ConsolidateService.on_engrams`
(lines 153-158): each engram is stored in `engram_builder` keyed by its id;
if the key is already present a `RuntimeError` is raised (engrams registered
before the collision stay registered).  Returns the builder reached together
with the error, if any. -/
def registerEngrams (b : Builder) : List Engram → Builder × Option String
  | [] => (b, none)
  | e :: rest =>
    match lookupKey e.id b with
    | some _ => (b, some collisionMsg)
    | none => registerEngrams (b ++ [(e.id, e)]) rest

/-- Embeds the context-string construction of
`ConsolidateService._gen_indices` (lines 187-195): starting from
`"Context: "`, append `"<key>: <value>\n"` for every entry of the engram's
context map whose value is not the string `"null"`, in iteration order. -/
def contextString (ctx : List (String × String)) : String :=
  ctx.foldl (fun acc p => if p.2 ≠ "null" then acc ++ (p.1 ++ ": " ++ p.2 ++ "\n") else acc)
    "Context: "

/-- The per-engram result dict `{'id', 'source_id', 'indices'}` returned by
`ConsolidateService._gen_indices`. -/
structure IndexSet where
  id : String
  source_id : String
  indices : List String
deriving Repr, DecidableEq

/-- Embeds `ConsolidateService._gen_indices`: call the language model,
raise `RuntimeError` if the engram's context is `None`, prefix
`"<context_string> Content: "` to every returned index text, and raise
`RuntimeError` if the resulting array is empty. -/
def genIndices (llm : Engram → List String) (source_id : String) (engram : Engram) :
    Except String IndexSet :=
  let load_json := llm engram
  match engram.context with
  | none => .error "None context found in engram."
  | some ctx =>
    let texts := load_json.map (fun t => contextString ctx ++ " Content: " ++ t)
    if texts.length = 0 then .error "An empty index was created."
    else .ok ⟨engram.id, source_id, texts⟩

/-- Join barrier A of the engram branch: run `genIndices` for every engram
of the observation (fan-out in list order); the join fails if any task
raised, and otherwise collects the per-task results in input order. -/
def genIndicesAll (llm : Engram → List String) (source_id : String) :
    List Engram → Except String (List IndexSet)
  | [] => .ok []
  | e :: rest =>
    match genIndices llm source_id e with
    | .error msg => .error msg
    | .ok s =>
      match genIndicesAll llm source_id rest with
      | .error msg => .error msg
      | .ok ss => .ok (s :: ss)

/-- The index texts the pipeline derives for one engram, as a standalone
function (empty when the context is absent, in which case `genIndices`
raises instead). -/
def indexTexts (llm : Engram → List String) (e : Engram) : List String :=
  match e.context with
  | none => []
  | some ctx => (llm e).map (fun t => contextString ctx ++ " Content: " ++ t)

/-- An engram as enriched by a successful pass through the pipeline: its
`indices` are the context-prefixed texts paired positionally with the
embedding plugin's vectors.  Generated per-Index uuids are opaque and
modelled as `""`. -/
def enrichEngram (llm : Engram → List String) (embed : List String → List (List ℚ))
    (e : Engram) : Engram :=
  let texts := indexTexts llm e
  let arr := List.zipWith (fun t v => Index.mk t (some v) "") texts (embed texts)
  { e with indices := some arr }

/-- Embeds the fan-out over `ConsolidateService._gen_embeddings` (one call
per index set, in join order): embed the index texts in one batch, wrap each
`(text, vector)` pair into an `Index` (Python enumerates the vectors and
subscripts the texts; an overrun is caught by the `try`, so the list built
is the positional zip), attach the list to the owning engram in the builder
(a missing key would raise `KeyError`), emit `INDEX_CREATED` and
`INDEX_COMPLETE`, and collect the returned `{engram_id, source_id}` pairs. -/
def embedStage (embed : List String → List (List ℚ)) (b : Builder) :
    List IndexSet → Except String (Builder × List Message × List (String × String))
  | [] => .ok (b, [], [])
  | s :: rest =>
    let index_array := List.zipWith (fun t v => Index.mk t (some v) "") s.indices
      (embed s.indices)
    match lookupKey s.id b with
    | none => .error "KeyError: engram_builder"
    | some eng =>
      let b' := setKey s.id { eng with indices := some index_array } b
      match embedStage embed b' rest with
      | .error msg => .error msg
      | .ok (b'', msgs, rets) =>
        .ok (b'', Message.indexCreated s.source_id (index_array.map Index.id)
            :: Message.indexComplete s.source_id s.id index_array :: msgs,
          (s.id, s.source_id) :: rets)

/-- Embeds the list comprehension of `ConsolidateService.on_embeddings_done`
(line 282): look each returned engram id up in `engram_builder` (a missing
key would raise `KeyError`). -/
def collectEngrams (b : Builder) : List (String × String) → Option (List Engram)
  | [] => some []
  | r :: rest =>
    match lookupKey r.1 b with
    | none => none
    | some e =>
      match collectEngrams b rest with
      | none => none
      | some es => some (e :: es)

/-- Outcome of the engram branch for one observation: the messages emitted
(in order), the final `engram_builder`, and the error raised, if any. -/
structure BranchResult where
  msgs : List Message
  builder : Builder
  error : Option String
deriving Repr, DecidableEq

/-- Embeds the engram branch of `ConsolidateService` for one observation,
sequentialized along the join barriers the service enforces
(`on_engrams` → join A over `_gen_indices` → join B over `_gen_embeddings`
→ `on_embeddings_done`); both joins preserve input order.  `ENGRAM_CREATED`
is emitted before registration, so it appears even when registration
collides.  An empty join result makes `ret_dict[0]` raise `IndexError`. -/
def runEngramBranch (llm : Engram → List String) (embed : List String → List (List ℚ))
    (b0 : Builder) (obs : Observation) : BranchResult :=
  let sid := obs.source_id
  let msg0 := Message.engramCreated sid (obs.engram_list.map (fun e => e.id))
  let reg := registerEngrams b0 obs.engram_list
  match reg.2 with
  | some err => ⟨[msg0], reg.1, some err⟩
  | none =>
    match genIndicesAll llm sid obs.engram_list with
    | .error err => ⟨[msg0], reg.1, some err⟩
    | .ok index_sets =>
      match embedStage embed reg.1 index_sets with
      | .error err => ⟨[msg0], reg.1, some err⟩
      | .ok (b2, emsgs, rets) =>
        match rets with
        | [] => ⟨[msg0] ++ emsgs, b2, some "IndexError: list index out of range"⟩
        | r0 :: _ =>
          match collectEngrams b2 rets with
          | none => ⟨[msg0] ++ emsgs, b2, some "KeyError: engram_builder"⟩
          | some engram_arr =>
            ⟨[msg0] ++ emsgs ++ [Message.engramComplete r0.2 engram_arr],
              rets.foldl (fun b r => eraseKey r.1 b) b2, none⟩

/-! ## ConsolidateService, summary-embedding branch -/

/-- Embeds `ConsolidateService._generate_summary_embeddings`: raise
`ValueError` when `meta.summary_full` is `None`; otherwise embed
`[summary_full.text]`, attach the first returned vector
(`embedding_list[0]`, an `IndexError` when the plugin returns no vector),
and emit `META_COMPLETE` with the updated meta. -/
def generateSummaryEmbeddings (embed : List String → List (List ℚ)) (obs : Observation) :
    List Message × Option String :=
  match obs.meta.summary_full with
  | none => ([], some "Summary full is none.")
  | some sf =>
    match embed [sf.text] with
    | [] => ([], some "IndexError: list index out of range")
    | v :: _ =>
      let meta' := { obs.meta with summary_full := some { sf with embedding := some v } }
      ([Message.metaComplete meta'], none)

/-- Embeds `ConsolidateService.on_observation_complete`: the summary
branch and the engram branch are two independently submitted tasks over the
same observation; neither consumes the other's result. -/
def onObservationComplete (llm : Engram → List String)
    (embed : List String → List (List ℚ)) (b0 : Builder) (obs : Observation) :
    (List Message × Option String) × BranchResult :=
  (generateSummaryEmbeddings embed obs, runEngramBranch llm embed b0 obs)

/-! ## ChromaDB vector-db plugin -/

/-- The `args` dict of `ChromaDB.query`, restricted to the two keys the code
reads; `none` models an absent key. -/
structure QueryArgs where
  threshold : Option ℚ
  n_results : Option Nat
deriving Repr, DecidableEq

/-- Embeds `ChromaDB.query` from `chromadb.py`.  The underlying
`collection.query(embeddings, n_results)` call is abstracted as
`store : Nat → List (ℚ × String)`, the paired `(distance, document)` columns
of the nearest neighbours for the requested `n_results`.  Mirroring the
source faithfully: the default threshold is 0.5 and the default n_results
is 2; `threshold` is overridden when the `'threshold'` key is present; and —
under the same `args.get('threshold') is not None` guard — `n_results` is
assigned from `args['n_results']`, which raises `KeyError` when that key is
absent.  Ids at distance strictly below the threshold are kept; the source
wraps them in a `set`, whose membership is that of the returned list. -/
def ChromaDB.query (store : Nat → List (ℚ × String)) (args : QueryArgs) :
    Except String (List String) :=
  let threshold : ℚ := match args.threshold with | some t => t | none => 1/2
  match args.threshold with
  | none =>
    let results := store 2
    .ok ((results.filter (fun r => r.1 < threshold)).map Prod.snd)
  | some _ =>
    match args.n_results with
    | none => .error "KeyError: n_results"
    | some n =>
      let results := store n
      .ok ((results.filter (fun r => r.1 < threshold)).map Prod.snd)

/-! ## ObservationSystem -/

/-- Modelled from the spec: `Engram.render` lives in the absent
`core/engram.py`; its output format is unspecified and never inspected by
any claim, so it is modelled as an opaque textual rendering of the engram's
content. -/
def Engram.render (e : Engram) : String :=
  "[engram]\ncontent = \"" ++ e.content ++ "\""

/-- Embeds `toml_escape` from `Meta.render` in `core/meta.py`. -/
def toml_escape (v : String) : String := "\"" ++ v ++ "\""

/-- Embeds `toml_list` from `Meta.render` in `core/meta.py`. -/
def toml_list (vs : List String) : String :=
  "[" ++ String.intercalate ", " (vs.map toml_escape) ++ "]"

/-- Python `str()` of a rational standing in for a float; numeric formatting
is approximated as `num/den` since floats are modelled as rationals. -/
def pyStrRat (q : ℚ) : String := toString q.num ++ "/" ++ toString q.den

/-- Modelled from the spec: `asdict` lowers the nested `summary_full` Index
(absent `core/index.py`) to a plain dict, which `Meta.render` then formats
with Python `str()`; this models that textual form. -/
def Index.pyStr (ix : Index) : String :=
  "\x7b\x27text\x27: \x27" ++ ix.text ++ "\x27, \x27embedding\x27: "
    ++ (match ix.embedding with
        | none => "None"
        | some v => "[" ++ String.intercalate ", " (v.map pyStrRat) ++ "]")
    ++ ", \x27id\x27: \x27" ++ ix.id ++ "\x27\x7d"

/-- Embeds `Meta.render` from `core/meta.py`: a `[meta]` section listing the
dataclass fields in declaration order; list values as TOML lists, `None`
values skipped, other values quoted through `toml_escape`. -/
def Meta.render (m : Meta) : String :=
  let output := ["[meta]"]
  let output := output ++ ["id = " ++ toml_escape m.id]
  let output := output ++ ["locations = " ++ toml_list m.locations]
  let output := output ++ ["source_ids = " ++ toml_list m.source_ids]
  let output := output ++ ["keywords = " ++ toml_list m.keywords]
  let output := output ++
    (match m.summary_initial with
     | none => []
     | some s => ["summary_initial = " ++ toml_escape s])
  let output := output ++
    (match m.summary_full with
     | none => []
     | some ix => ["summary_full = " ++ toml_escape ix.pyStr])
  String.intercalate "\n" output

/-- Embeds `ObservationSystem.render`: start from the rendered meta, then
reassign (`return_string = engram.render()`, not `+=`) for every engram in
order, so a non-empty list leaves only the last engram's render. -/
def ObservationSystem.render (o : Observation) : String :=
  o.engram_list.foldl (fun _ e => e.render) ("" ++ o.meta.render)

/-- Embeds the dict-comprehension dedup of `merge_observation`
(`list({x: str for m in ... for x in m[...]})`): dict keys are unique and
kept in first-insertion order. -/
def dictKeysDedup (l : List String) : List String :=
  l.foldl (fun acc x => if x ∈ acc then acc else acc ++ [x]) []

/-- Embeds `ObservationSystem.merge_observation`.  Engrams are kept when
`accuracy > accuracy_filter and relevancy > relevancy_filter` (strict);
`combined_source_ids` dedups the kept engrams' `source_ids` and
`combined_locations` their `locations`; `Index(**meta.summary_full)`
rebuilds the summary index (a `TypeError` when `summary_full` is `None`);
the new `Meta` is built POSITIONALLY as in the source —
`Meta(uuid4, combined_source_ids, combined_locations, keywords,
summary_initial, index)` against the dataclass order
`(id, locations, source_ids, ...)` of `core/meta.py`, so
`combined_source_ids` lands in the `locations` field and
`combined_locations` in `source_ids`.  `engram_repository.load_batch_dict`
(absent from the tree) is modelled from the spec as reconstructing the
filtered engrams unchanged.  Fresh uuids are caller-supplied; the source
constructs the merged `ObservationSystem` with three arguments
(id, meta, engram_list), so under the spec's four-field Observation the
`source_id` is modelled as carried over. -/
def ObservationSystem.merge_observation (obs : Observation)
    (accuracy_filter relevancy_filter : Int) (newMetaId newObsId : String) :
    Except String Observation :=
  let filtered := obs.engram_list.filter
    (fun m => decide (m.accuracy > accuracy_filter) && decide (m.relevancy > relevancy_filter))
  let combined_source_ids := dictKeysDedup (filtered.flatMap (fun m => m.source_ids))
  let combined_locations := dictKeysDedup (filtered.flatMap (fun m => m.locations))
  match obs.meta.summary_full with
  | none => .error "TypeError: Index(**None)"
  | some sf =>
    let index : Index := ⟨sf.text, sf.embedding, sf.id⟩
    let new_meta : Meta := ⟨newMetaId, combined_source_ids, combined_locations,
      obs.meta.keywords, obs.meta.summary_initial, some index⟩
    let engram_list := filtered
    .ok ⟨newObsId, obs.source_id, new_meta, engram_list⟩

/-! ## Concrete plugin stubs and inputs (spec §8 scenarios) -/

/-- Language-model stub of scenario S1: every engram yields the single index
text `"biographical detail"`. -/
def llmStub : Engram → List String := fun _ => ["biographical detail"]

/-- Embedding stub: exactly one two-dimensional vector per input string. -/
def embedStub : List String → List (List ℚ) := fun l => l.map (fun _ => [1, 2])

/-- Scenario S1 engram, with context map `header ↦ Intro`. -/
def engramS1 : Engram :=
  ⟨"e-1", ["s1"], ["l1"], "test content", true, some [("header", "Intro")], 1, 1, none⟩

/-- Meta record with a summary index whose embedding is not yet computed. -/
def metaS1 : Meta :=
  ⟨"m-1", ["loc-a"], ["src-a"], ["kw"], some "initial summary",
    some ⟨"summary text", none, "ix-1"⟩⟩

/-- Scenario S1 observation: one engram, summary present. -/
def obsS1 : Observation := ⟨"obs-1", "src-1", metaS1, [engramS1]⟩

/-- Scenario S4 observation: two engrams with the same id. -/
def obsDup : Observation := ⟨"obs-2", "src-2", metaS1, [engramS1, engramS1]⟩

/-- A vector-db collection holding five neighbours at distance 0; a query
for `n` results returns the first `n`. -/
def queryStore : Nat → List (ℚ × String) :=
  fun n => List.take n [(0, "d0"), (0, "d1"), (0, "d2"), (0, "d3"), (0, "d4")]

/-! ## Association-list lemmas -/

theorem lookupKey_append (k : String) (b c : Builder) :
    lookupKey k (b ++ c)
      = match lookupKey k b with
        | some v => some v
        | none => lookupKey k c := by
  induction b with
  | nil => simp [lookupKey]
  | cons p rest ih =>
    by_cases h : p.1 = k <;> simp [lookupKey, h, ih]

theorem lookupKey_eq_none_iff (k : String) (b : Builder) :
    lookupKey k b = none ↔ ∀ p ∈ b, p.1 ≠ k := by
  induction b with
  | nil => simp [lookupKey]
  | cons p rest ih =>
    by_cases h : p.1 = k <;> simp [lookupKey, h, ih]

theorem setKey_append (k : String) (v : Engram) (b c : Builder) :
    setKey k v (b ++ c) = setKey k v b ++ setKey k v c := by
  induction b with
  | nil => simp [setKey]
  | cons p rest ih => simp [setKey, ih]

theorem setKey_eq_of_lookup_none (k : String) (v : Engram) (b : Builder)
    (h : lookupKey k b = none) : setKey k v b = b := by
  induction b with
  | nil => simp [setKey]
  | cons p rest ih =>
    rw [lookupKey_eq_none_iff] at h
    have hp : p.1 ≠ k := h p (by simp)
    rw [lookupKey_eq_none_iff] at ih
    simp only [setKey, if_neg hp]
    rw [ih (fun q hq => h q (by simp [hq]))]

/-! ## Registration lemmas (`on_engrams`, lines 153-158) -/

theorem registerEngrams_snd (b : Builder) (l : List Engram) :
    (registerEngrams b l).2 = none ∨ (registerEngrams b l).2 = some collisionMsg := by
  induction l generalizing b with
  | nil => simp [registerEngrams]
  | cons e rest ih =>
    simp only [registerEngrams]
    cases h : lookupKey e.id b with
    | none => exact ih (b ++ [(e.id, e)])
    | some _ => simp

theorem registerEngrams_ok (b : Builder) (l : List Engram)
    (h : (registerEngrams b l).2 = none) :
    (registerEngrams b l).1 = b ++ l.map (fun e => (e.id, e))
      ∧ (l.map (fun e => e.id)).Nodup
      ∧ ∀ e ∈ l, lookupKey e.id b = none := by
  induction l generalizing b with
  | nil => simp [registerEngrams]
  | cons e rest ih =>
    simp only [registerEngrams] at h ⊢
    cases hl : lookupKey e.id b with
    | some _ => rw [hl] at h; simp at h
    | none =>
      rw [hl] at h
      obtain ⟨h1, h2, h3⟩ := ih (b ++ [(e.id, e)]) h
      refine ⟨by rw [h1]; simp, ?_, ?_⟩
      · refine List.nodup_cons.mpr ⟨?_, h2⟩
        intro hmem
        obtain ⟨e', he', hid⟩ := List.mem_map.mp hmem
        have := h3 e' he'
        rw [lookupKey_append] at this
        cases hb : lookupKey e'.id b with
        | some _ => rw [hb] at this; simp at this
        | none =>
          rw [hb] at this
          simp only [lookupKey] at this
          rw [hid] at this
          simp at this
      · intro e' he'
        rcases List.mem_cons.mp he' with he' | he'
        · rw [he']; exact hl
        · have := h3 e' he'
          rw [lookupKey_append] at this
          cases hb : lookupKey e'.id b with
          | some _ => rw [hb] at this; simp at this
          | none => rfl

/-! ## Index-generation lemmas (`_gen_indices`) -/

theorem genIndices_eq_ok {llm : Engram → List String} {sid : String} {e : Engram}
    {s : IndexSet} (h : genIndices llm sid e = .ok s) :
    (∃ ctx, e.context = some ctx) ∧ llm e ≠ [] ∧ s = ⟨e.id, sid, indexTexts llm e⟩ := by
  cases hc : e.context with
  | none => simp [genIndices, hc] at h
  | some ctx =>
    simp only [genIndices, hc] at h
    by_cases hl : (llm e).length = 0
    · rw [List.length_map, if_pos hl] at h
      simp at h
    · rw [List.length_map, if_neg hl] at h
      refine ⟨⟨ctx, rfl⟩, fun hnil => hl (by rw [hnil]; rfl), ?_⟩
      simp only [Except.ok.injEq] at h
      rw [← h]
      simp [indexTexts, hc]

theorem genIndices_ok_of {llm : Engram → List String} {sid : String} {e : Engram}
    {ctx : List (String × String)} (hc : e.context = some ctx) (hl : llm e ≠ []) :
    genIndices llm sid e = .ok ⟨e.id, sid, indexTexts llm e⟩ := by
  simp only [genIndices, hc, List.length_map]
  rw [if_neg (by simpa using hl)]
  simp [indexTexts, hc]

theorem genIndicesAll_eq_ok {llm : Engram → List String} {sid : String}
    {l : List Engram} {ss : List IndexSet}
    (h : genIndicesAll llm sid l = .ok ss) :
    ss = l.map (fun e => IndexSet.mk e.id sid (indexTexts llm e))
      ∧ ∀ e ∈ l, e.context ≠ none ∧ llm e ≠ [] := by
  induction l generalizing ss with
  | nil => simp only [genIndicesAll, Except.ok.injEq] at h; simp [← h]
  | cons e rest ih =>
    simp only [genIndicesAll] at h
    cases hg : genIndices llm sid e with
    | error msg => rw [hg] at h; simp at h
    | ok s =>
      rw [hg] at h
      cases hr : genIndicesAll llm sid rest with
      | error msg => rw [hr] at h; simp at h
      | ok ss' =>
        rw [hr] at h
        simp only [Except.ok.injEq] at h
        obtain ⟨⟨ctx, hctx⟩, hnil, hs⟩ := genIndices_eq_ok hg
        obtain ⟨ih1, ih2⟩ := ih hr
        refine ⟨?_, ?_⟩
        · rw [← h, hs, ih1]; rfl
        · intro e' he'
          rcases List.mem_cons.mp he' with he' | he'
          · subst he'; exact ⟨by simp [hctx], hnil⟩
          · exact ih2 e' he'

/-! ## Embedding-stage lemmas (`_gen_embeddings`) -/

theorem embedStage_ok_parts {embed : List String → List (List ℚ)} {b : Builder}
    {sets : List IndexSet} {out : Builder × List Message × List (String × String)}
    (h : embedStage embed b sets = .ok out) :
    out.2.2 = sets.map (fun s => (s.id, s.source_id))
      ∧ ∀ m ∈ out.2.1, m.isEngramComplete = false := by
  induction sets generalizing b out with
  | nil =>
    simp only [embedStage, Except.ok.injEq] at h
    simp [← h]
  | cons s rest ih =>
    simp only [embedStage] at h
    cases hl : lookupKey s.id b with
    | none => rw [hl] at h; simp at h
    | some eng =>
      rw [hl] at h
      dsimp only at h
      cases he : embedStage embed
          (setKey s.id { eng with indices := some (List.zipWith
            (fun t v => Index.mk t (some v) "") s.indices (embed s.indices)) } b) rest with
      | error msg => rw [he] at h; simp at h
      | ok val =>
        obtain ⟨b'', msgs, rets⟩ := val
        rw [he] at h
        simp only [Except.ok.injEq] at h
        obtain ⟨ih1, ih2⟩ := ih he
        refine ⟨?_, ?_⟩
        · rw [← h]; simpa using ih1
        · rw [← h]
          intro m hm
          simp only [List.mem_cons] at hm
          rcases hm with hm | hm | hm
          · rw [hm]; rfl
          · rw [hm]; rfl
          · exact ih2 m hm

theorem embedStage_spec (llm : Engram → List String) (embed : List String → List (List ℚ))
    (sid : String) (l : List Engram) (b0 : Builder)
    (hdisj : ∀ e ∈ l, lookupKey e.id b0 = none)
    (hnodup : (l.map (fun e => e.id)).Nodup) :
    ∃ msgs, embedStage embed (b0 ++ l.map (fun e => (e.id, e)))
        (l.map (fun e => IndexSet.mk e.id sid (indexTexts llm e)))
      = .ok (b0 ++ l.map (fun e => (e.id, enrichEngram llm embed e)), msgs,
          l.map (fun e => (e.id, sid))) := by
  induction l generalizing b0 with
  | nil => exact ⟨[], by simp [embedStage]⟩
  | cons e rest ih =>
    have hnodup' : (rest.map (fun e => e.id)).Nodup := (List.nodup_cons.mp hnodup).2
    have hnotmem : e.id ∉ rest.map (fun e => e.id) := (List.nodup_cons.mp hnodup).1
    have hrest_ne : ∀ e' ∈ rest, e'.id ≠ e.id := by
      intro e' he' heq
      exact hnotmem (List.mem_map.mpr ⟨e', he', heq⟩)
    have hlook : lookupKey e.id
        (b0 ++ (e.id, e) :: rest.map (fun e' => (e'.id, e'))) = some e := by
      rw [lookupKey_append, hdisj e (List.mem_cons_self e rest)]
      simp [lookupKey]
    have hlookrest : lookupKey e.id (rest.map (fun e' => (e'.id, e'))) = none := by
      rw [lookupKey_eq_none_iff]
      intro p hp
      obtain ⟨e', he', hpe⟩ := List.mem_map.mp hp
      rw [← hpe]
      exact hrest_ne e' he'
    have hset : setKey e.id (enrichEngram llm embed e)
        (b0 ++ (e.id, e) :: rest.map (fun e' => (e'.id, e')))
      = (b0 ++ [(e.id, enrichEngram llm embed e)]) ++ rest.map (fun e' => (e'.id, e')) := by
      rw [setKey_append, setKey_eq_of_lookup_none _ _ _ (hdisj e (List.mem_cons_self e rest))]
      simp only [setKey, if_pos rfl]
      rw [setKey_eq_of_lookup_none _ _ _ hlookrest]
      simp
    have hdisj' : ∀ e' ∈ rest, lookupKey e'.id (b0 ++ [(e.id, enrichEngram llm embed e)]) = none := by
      intro e' he'
      rw [lookupKey_append, hdisj e' (List.mem_cons_of_mem e he')]
      simp [lookupKey, Ne.symm (hrest_ne e' he')]
    obtain ⟨msgs', hE⟩ := ih (b0 ++ [(e.id, enrichEngram llm embed e)]) hdisj' hnodup'
    refine ⟨Message.indexCreated sid ((List.zipWith (fun t v => Index.mk t (some v) "")
        (indexTexts llm e) (embed (indexTexts llm e))).map Index.id)
      :: Message.indexComplete sid e.id (List.zipWith (fun t v => Index.mk t (some v) "")
        (indexTexts llm e) (embed (indexTexts llm e))) :: msgs', ?_⟩
    simp only [List.map_cons, embedStage, hlook]
    have harr : ({ e with indices := some (List.zipWith (fun t v => Index.mk t (some v) "")
        (indexTexts llm e) (embed (indexTexts llm e))) } : Engram)
        = enrichEngram llm embed e := by
      simp [enrichEngram]
    rw [harr, hset, hE]
    simp

/-! ## Completion-stage lemmas (`on_embeddings_done`) -/

theorem collectEngrams_map {b : Builder} {l : List Engram} {sid : String}
    {f : Engram → Engram}
    (h : ∀ e ∈ l, lookupKey e.id b = some (f e)) :
    collectEngrams b (l.map (fun e => (e.id, sid))) = some (l.map f) := by
  induction l with
  | nil => simp [collectEngrams]
  | cons e rest ih =>
    simp only [List.map_cons, collectEngrams]
    rw [h e (List.mem_cons_self e rest), ih (fun e' he' => h e' (List.mem_cons_of_mem e he'))]

theorem lookupKey_map_of_nodup {l : List Engram} (g : Engram → Engram)
    (hnodup : (l.map (fun e => e.id)).Nodup) :
    ∀ e ∈ l, lookupKey e.id (l.map (fun e' => (e'.id, g e'))) = some (g e) := by
  induction l with
  | nil => simp
  | cons x rest ih =>
    intro e he
    have hnotmem : x.id ∉ rest.map (fun e => e.id) := (List.nodup_cons.mp hnodup).1
    rcases List.mem_cons.mp he with he | he
    · subst he
      simp [lookupKey]
    · have hne : e.id ≠ x.id := by
        intro heq
        exact hnotmem (List.mem_map.mpr ⟨e, he, heq⟩)
      simp only [List.map_cons, lookupKey, if_neg (Ne.symm hne)]
      exact ih (List.nodup_cons.mp hnodup).2 e he

theorem foldl_eraseKey (rets : List (String × String)) (b : Builder) :
    rets.foldl (fun b r => eraseKey r.1 b) b
      = b.filter (fun p => rets.all (fun r => p.1 != r.1)) := by
  induction rets generalizing b with
  | nil =>
    simp only [List.foldl_nil]
    rw [Eq.comm, List.filter_eq_self.mpr]
    intro p _
    simp
  | cons r rest ih =>
    rw [List.foldl_cons, ih, eraseKey, List.filter_filter]
    apply List.filter_congr
    intro p _
    rw [Bool.eq_iff_iff]
    simp only [Bool.and_eq_true, List.all_eq_true, bne_iff_ne]
    constructor
    · rintro ⟨h1, h2⟩ r' hr'
      rcases List.mem_cons.mp hr' with hr' | hr'
      · rw [hr']; exact h2
      · exact h1 r' hr'
    · intro hall
      exact ⟨fun r' hr' => hall r' (List.mem_cons_of_mem r hr'),
        hall r (List.mem_cons_self r rest)⟩

theorem erase_all_own_keys {l : List Engram} (g : Engram → Engram) (sid : String) :
    (l.map (fun e => (e.id, sid))).foldl (fun b r => eraseKey r.1 b)
      (l.map (fun e => (e.id, g e))) = [] := by
  rw [foldl_eraseKey]
  rw [List.filter_eq_nil_iff]
  intro p hp
  obtain ⟨e, he, hpe⟩ := List.mem_map.mp hp
  simp only [List.all_eq_true, bne_iff_ne, not_forall]
  refine ⟨(e.id, sid), List.mem_map.mpr ⟨e, he, rfl⟩, ?_⟩
  rw [← hpe]
  simp

/-! ## Whole-branch characterizations -/

theorem runEngramBranch_ok_spec (llm : Engram → List String)
    (embed : List String → List (List ℚ)) (obs : Observation)
    (h : (runEngramBranch llm embed [] obs).error = none) :
    (runEngramBranch llm embed [] obs).msgs.filter Message.isEngramComplete
        = [Message.engramComplete obs.source_id
            (obs.engram_list.map (enrichEngram llm embed))]
      ∧ (runEngramBranch llm embed [] obs).builder = []
      ∧ (obs.engram_list.map (fun e => e.id)).Nodup
      ∧ obs.engram_list ≠ []
      ∧ ∀ e ∈ obs.engram_list, e.context ≠ none ∧ llm e ≠ [] := by
  simp only [runEngramBranch] at h ⊢
  cases hr2 : (registerEngrams [] obs.engram_list).2 with
  | some err => rw [hr2] at h; simp at h
  | none =>
    rw [hr2] at h
    dsimp only at h ⊢
    obtain ⟨hb1, hnodup, -⟩ := registerEngrams_ok [] obs.engram_list hr2
    cases hg : genIndicesAll llm obs.source_id obs.engram_list with
    | error err => rw [hg] at h; simp at h
    | ok ss =>
      rw [hg] at h
      dsimp only at h ⊢
      obtain ⟨hss, hprops⟩ := genIndicesAll_eq_ok hg
      obtain ⟨emsgs, hE⟩ := embedStage_spec llm embed obs.source_id obs.engram_list []
        (fun e _ => rfl) hnodup
      rw [List.nil_append] at hE
      rw [hb1, List.nil_append, hss, hE] at h ⊢
      dsimp only at h ⊢
      obtain ⟨hparts, hnoec⟩ := embedStage_ok_parts hE
      cases hl : obs.engram_list with
      | nil => rw [hl] at h; simp at h
      | cons e0 rest =>
        rw [hl] at h
        simp only [List.map_cons, List.nil_append] at h ⊢
        have hcollect : collectEngrams
            (List.map (fun e => (e.id, enrichEngram llm embed e)) (e0 :: rest))
            ((e0 :: rest).map (fun e => (e.id, obs.source_id)))
              = some ((e0 :: rest).map (enrichEngram llm embed)) :=
          collectEngrams_map (lookupKey_map_of_nodup (enrichEngram llm embed) (hl ▸ hnodup))
        simp only [List.map_cons] at hcollect
        rw [hcollect] at h ⊢
        dsimp only at h ⊢
        have hemsgs : emsgs.filter Message.isEngramComplete = [] :=
          List.filter_eq_nil_iff.mpr (fun m hm => by simp [hnoec m hm])
        refine ⟨?_, ?_, ?_, by simp, ?_⟩
        · simp [List.filter_append, List.filter_cons, Message.isEngramComplete, hemsgs]
        · have := erase_all_own_keys (l := e0 :: rest) (enrichEngram llm embed) obs.source_id
          simp only [List.map_cons] at this
          exact this
        · rw [hl] at hnodup
          simpa using hnodup
        · rw [hl] at hprops
          exact hprops

theorem runEngramBranch_error_no_complete (llm : Engram → List String)
    (embed : List String → List (List ℚ)) (b0 : Builder) (obs : Observation)
    (h : (runEngramBranch llm embed b0 obs).error ≠ none) :
    (runEngramBranch llm embed b0 obs).msgs.filter Message.isEngramComplete = [] := by
  simp only [runEngramBranch] at h ⊢
  cases hr2 : (registerEngrams b0 obs.engram_list).2 with
  | some err => simp [Message.isEngramComplete]
  | none =>
    rw [hr2] at h
    dsimp only at h ⊢
    cases hg : genIndicesAll llm obs.source_id obs.engram_list with
    | error err => simp [Message.isEngramComplete]
    | ok ss =>
      rw [hg] at h
      dsimp only at h ⊢
      cases hE : embedStage embed (registerEngrams b0 obs.engram_list).1 ss with
      | error err => simp [Message.isEngramComplete]
      | ok val =>
        obtain ⟨b2, emsgs, rets⟩ := val
        rw [hE] at h
        dsimp only at h ⊢
        obtain ⟨-, hnoec⟩ := embedStage_ok_parts hE
        have hemsgs : emsgs.filter Message.isEngramComplete = [] :=
          List.filter_eq_nil_iff.mpr (by
            intro m hm
            simp [hnoec m hm])
        cases hrets : rets with
        | nil =>
          rw [hrets] at h
          simp [Message.isEngramComplete, hemsgs]
        | cons r0 rts =>
          rw [hrets] at h
          dsimp only at h ⊢
          cases hc : collectEngrams b2 (r0 :: rts) with
          | none => simp [Message.isEngramComplete, hemsgs]
          | some engrams =>
            rw [hc] at h
            simp at h

/-! ## String helpers -/

theorem strJoin_cons (s : String) (l : List String) :
    String.join (s :: l) = s ++ String.join l := by
  have hgen : ∀ (xs : List String) (acc : String),
      xs.foldl (fun r x => r ++ x) acc = acc ++ String.join xs := by
    intro xs
    induction xs with
    | nil => intro acc; simp [String.join, String.append_empty]
    | cons x rest ih =>
      intro acc
      rw [List.foldl_cons, ih (acc ++ x)]
      conv_rhs => rw [String.join, List.foldl_cons, String.empty_append, ih x]
      rw [String.append_assoc]
  rw [String.join, List.foldl_cons, String.empty_append]
  exact hgen l s

theorem contextString_eq (ctx : List (String × String)) :
    contextString ctx = "Context: " ++ String.join
      ((ctx.filter (fun p => p.2 != "null")).map (fun p => p.1 ++ ": " ++ p.2 ++ "\n")) := by
  have hgen : ∀ (l : List (String × String)) (acc : String),
      l.foldl (fun acc p => if p.2 ≠ "null" then acc ++ (p.1 ++ ": " ++ p.2 ++ "\n") else acc) acc
        = acc ++ String.join
            ((l.filter (fun p => p.2 != "null")).map (fun p => p.1 ++ ": " ++ p.2 ++ "\n")) := by
    intro l
    induction l with
    | nil => intro acc; simp [String.join, String.append_empty]
    | cons p rest ih =>
      intro acc
      rw [List.foldl_cons, List.filter_cons]
      by_cases h : p.2 = "null"
      · rw [if_neg (by simp [h])]
        have : (p.2 != "null") = false := by simp [h]
        rw [this]
        exact ih acc
      · rw [if_pos h]
        have hb : (p.2 != "null") = true := by simp [h]
        rw [hb, if_pos rfl]
        simp only [List.map_cons]
        rw [strJoin_cons, ih (acc ++ (p.1 ++ ": " ++ p.2 ++ "\n")), String.append_assoc]
  exact hgen ctx "Context: "

/-! ## Generic list helpers -/

theorem foldl_keep_last {α β : Type} (f : α → β) :
    ∀ (a : β) (l : List α) (h : l ≠ []), l.foldl (fun _ x => f x) a = f (l.getLast h)
  | _, [x], _ => by simp
  | a, x :: y :: ys, _ => by
    rw [List.foldl_cons]
    rw [List.getLast_cons (by simp : y :: ys ≠ [])]
    exact foldl_keep_last f (f x) (y :: ys) (by simp)

theorem mem_zipWith_mkIndex {ts : List String} {vs : List (List ℚ)} {ix : Index}
    (h : ix ∈ List.zipWith (fun t v => Index.mk t (some v) "") ts vs) :
    ∃ t v, v ∈ vs ∧ ix = Index.mk t (some v) "" := by
  induction ts generalizing vs with
  | nil => simp at h
  | cons t ts ih =>
    cases vs with
    | nil => simp at h
    | cons v vs =>
      simp only [List.zipWith_cons_cons, List.mem_cons] at h
      rcases h with h | h
      · exact ⟨t, v, List.mem_cons_self v vs, h⟩
      · obtain ⟨t', v', hv', hix⟩ := ih h
        exact ⟨t', v', List.mem_cons_of_mem v hv', hix⟩

/-! ## Claims -/

/-- C2: the spec says `vector_db.query` returns the ids whose distance is
strictly below `args.threshold` (default 0.5), capped at `args.n_results`
(default 2), for every combination of the two keys being present or absent.
The code reads `args['n_results']` under an `args.get('threshold') is not
None` guard, so with `threshold` present and `n_results` absent it raises
`KeyError` instead of using the default cap, and with `n_results` present
and `threshold` absent the requested cap is ignored and only the default 2
neighbours are fetched (here 5 zero-distance neighbours are stored, all
below every positive threshold). -/
theorem chromadb_query_nresults_bug :
    ChromaDB.query queryStore ⟨some 1, none⟩ = .error "KeyError: n_results"
    ∧ ChromaDB.query queryStore ⟨none, some 5⟩ = .ok ["d0", "d1"]
    ∧ ChromaDB.query queryStore ⟨none, some 5⟩ ≠ .ok ["d0", "d1", "d2", "d3", "d4"] := by
  have h2 : ChromaDB.query queryStore ⟨none, some 5⟩ = .ok ["d0", "d1"] := by
    norm_num [ChromaDB.query, queryStore]
  exact ⟨rfl, h2, by rw [h2]; simp⟩

/-- C3: for an engram with context map `c`, every index text produced by
`_gen_indices` is `"Context: "` followed by the concatenation of
`"<key>: <value>\n"` over the entries of `c` whose value is not `"null"`,
followed by `" Content: "` and the language model's original index text. -/
theorem gen_indices_context_prefix (llm : Engram → List String) (sid : String)
    (e : Engram) (ctx : List (String × String)) (hc : e.context = some ctx)
    (out : IndexSet) (h : genIndices llm sid e = .ok out) :
    out.indices = (llm e).map (fun t =>
      "Context: " ++ String.join
        ((ctx.filter (fun p => p.2 != "null")).map (fun p => p.1 ++ ": " ++ p.2 ++ "\n"))
      ++ " Content: " ++ t) := by
  obtain ⟨-, -, hout⟩ := genIndices_eq_ok h
  rw [hout]
  show indexTexts llm e = _
  rw [indexTexts, hc]
  apply List.map_congr_left
  intro t _
  rw [contextString_eq, String.append_assoc]

/-- C3 witness: scenario S1 — context `{header: Intro}` and index text
`"biographical detail"` produce exactly
`"Context: header: Intro\n Content: biographical detail"`. -/
theorem gen_indices_context_prefix_witness :
    engramS1.context = some [("header", "Intro")]
    ∧ genIndices llmStub "src-1" engramS1 = .ok ⟨"e-1", "src-1",
        ["Context: header: Intro\n Content: biographical detail"]⟩
    ∧ (IndexSet.mk "e-1" "src-1"
        ["Context: header: Intro\n Content: biographical detail"]).indices
      = (llmStub engramS1).map (fun t =>
          "Context: " ++ String.join
            (([("header", "Intro")].filter (fun p => p.2 != "null")).map
              (fun p => p.1 ++ ": " ++ p.2 ++ "\n"))
          ++ " Content: " ++ t) :=
  ⟨rfl, rfl,
    gen_indices_context_prefix llmStub "src-1" engramS1 [("header", "Intro")] rfl
      ⟨"e-1", "src-1", ["Context: header: Intro\n Content: biographical detail"]⟩
      rfl⟩

/-- C9: `ObservationSystem.render` reassigns instead of appending inside its
loop, so for a non-empty `engram_list` it returns exactly the render of the
last engram (discarding the rendered meta and all earlier engrams), and for
an empty `engram_list` it returns `meta.render()`. -/
theorem observation_render_last (o : Observation) :
    (o.engram_list = [] → ObservationSystem.render o = o.meta.render)
    ∧ ∀ h : o.engram_list ≠ [],
        ObservationSystem.render o = (o.engram_list.getLast h).render := by
  constructor
  · intro h
    rw [ObservationSystem.render, h, List.foldl_nil, String.empty_append]
  · intro h
    rw [ObservationSystem.render]
    exact foldl_keep_last Engram.render _ _ h

/-- C9 witness: with one engram the render is that engram's render; with no
engrams it is the meta's render. -/
theorem observation_render_last_witness :
    ObservationSystem.render obsS1 = engramS1.render
    ∧ ObservationSystem.render ⟨"obs-0", "src-0", metaS1, []⟩ = metaS1.render :=
  ⟨(observation_render_last obsS1).2 (by simp [obsS1]),
   (observation_render_last ⟨"obs-0", "src-0", metaS1, []⟩).1 rfl⟩

/-- C10: `merge_observation` keeps exactly the engrams passing the strict
accuracy/relevancy filters and carries keywords, summary_initial and
summary_full over — but it builds the new `Meta` positionally against the
dataclass order `(id, locations, source_ids, …)` of `core/meta.py`, so the
dedup union of the kept engrams' `source_ids` lands in the meta's
`locations` field and the union of their `locations` in `source_ids`,
the opposite of what the claim (and the code's own variable names) state.
Here the single kept engram has `source_ids = ["s1"]` and
`locations = ["l1"]`, and the merged meta has `locations = ["s1"]`,
`source_ids = ["l1"]`. -/
theorem merge_observation_swaps_fields :
    (ObservationSystem.merge_observation obsS1 0 0 "new-meta" "new-obs").map
        (fun o => (o.meta.locations, o.meta.source_ids, o.meta.keywords,
          o.meta.summary_initial, o.meta.summary_full, o.engram_list))
      = .ok (["s1"], ["l1"], ["kw"], some "initial summary",
          some ⟨"summary text", none, "ix-1"⟩, [engramS1]) := rfl

/-- C1: for every observation admitted, if the engram branch completes
without error then exactly one `ENGRAM_COMPLETE` is emitted, whose
`engram_array` is positionally the enriched version of
`observation.engram_list` (hence of equal length, element `i` being the
enrichment of `engram_list[i]`); if any stage of the branch fails, no
`ENGRAM_COMPLETE` is emitted for that observation. -/
theorem consolidate_engram_complete_spec (llm : Engram → List String)
    (embed : List String → List (List ℚ)) (obs : Observation) :
    ((runEngramBranch llm embed [] obs).error = none →
      (runEngramBranch llm embed [] obs).msgs.filter Message.isEngramComplete
        = [Message.engramComplete obs.source_id
            (obs.engram_list.map (enrichEngram llm embed))]
      ∧ (obs.engram_list.map (enrichEngram llm embed)).length
          = obs.engram_list.length)
    ∧ ((runEngramBranch llm embed [] obs).error ≠ none →
      (runEngramBranch llm embed [] obs).msgs.filter Message.isEngramComplete = []) :=
  ⟨fun h => ⟨(runEngramBranch_ok_spec llm embed obs h).1, by simp⟩,
   fun h => runEngramBranch_error_no_complete llm embed [] obs h⟩

/-- C1 witness: the scenario-S1 run completes and emits exactly one
`ENGRAM_COMPLETE` with the one enriched engram; a failing run (the language
model returns no index texts) emits none. -/
theorem consolidate_engram_complete_spec_witness :
    (runEngramBranch llmStub embedStub [] obsS1).error = none
    ∧ (runEngramBranch llmStub embedStub [] obsS1).msgs.filter Message.isEngramComplete
        = [Message.engramComplete "src-1" [enrichEngram llmStub embedStub engramS1]]
    ∧ (runEngramBranch (fun _ => []) embedStub [] obsS1).msgs.filter
        Message.isEngramComplete = [] :=
  ⟨rfl,
   ((consolidate_engram_complete_spec llmStub embedStub obsS1).1 rfl).1,
   (consolidate_engram_complete_spec (fun _ => []) embedStub obsS1).2 (by decide)⟩

/-- C4: when the engram_list holds two engrams with the same id (or an id
already registered in `engram_builder`), registration raises the
RuntimeError whose message begins with "Engram ID Collision", and no
ENGRAM_COMPLETE is emitted for that observation. -/
theorem engram_id_collision_fatal (llm : Engram → List String)
    (embed : List String → List (List ℚ)) (b0 : Builder) (obs : Observation)
    (hdup : ¬(obs.engram_list.map (fun e => e.id)).Nodup
      ∨ ∃ e ∈ obs.engram_list, lookupKey e.id b0 ≠ none) :
    (runEngramBranch llm embed b0 obs).error = some collisionMsg
    ∧ collisionMsg = "Engram ID Collision"
        ++ ". During conslidation, two Engrams with the same IDs were detected."
    ∧ (runEngramBranch llm embed b0 obs).msgs.filter Message.isEngramComplete = [] := by
  have hsnd : (registerEngrams b0 obs.engram_list).2 = some collisionMsg := by
    rcases registerEngrams_snd b0 obs.engram_list with hn | hs
    · obtain ⟨-, hnodup, hnone⟩ := registerEngrams_ok b0 obs.engram_list hn
      rcases hdup with hdup | ⟨e, he, hne⟩
      · exact absurd hnodup hdup
      · exact absurd (hnone e he) hne
    · exact hs
  have herr : (runEngramBranch llm embed b0 obs).error = some collisionMsg := by
    simp only [runEngramBranch, hsnd]
  exact ⟨herr, rfl,
    runEngramBranch_error_no_complete llm embed b0 obs (by rw [herr]; simp)⟩

/-- C4 witness: scenario S4 — an observation with two equal-id engrams ends
in the collision error. -/
theorem engram_id_collision_fatal_witness :
    ¬(obsDup.engram_list.map (fun e => e.id)).Nodup
    ∧ (runEngramBranch llmStub embedStub [] obsDup).error = some collisionMsg :=
  ⟨by decide,
   (engram_id_collision_fatal llmStub embedStub [] obsDup (Or.inl (by decide))).1⟩

/-- C5: if the language model returns an empty `index_text_array` for some
engram of the observation, that engram's `_gen_indices` task raises a
RuntimeError, and no ENGRAM_COMPLETE is emitted for the observation. -/
theorem empty_index_array_fatal (llm : Engram → List String)
    (embed : List String → List (List ℚ)) (obs : Observation) (e : Engram)
    (he : e ∈ obs.engram_list) (hllm : llm e = []) :
    (∃ msg, genIndices llm obs.source_id e = .error msg)
    ∧ (runEngramBranch llm embed [] obs).msgs.filter Message.isEngramComplete = [] := by
  have hfail : ∃ msg, genIndices llm obs.source_id e = .error msg := by
    cases hc : e.context with
    | none => exact ⟨"None context found in engram.", by simp [genIndices, hc]⟩
    | some ctx => exact ⟨"An empty index was created.", by simp [genIndices, hc, hllm]⟩
  refine ⟨hfail, ?_⟩
  apply runEngramBranch_error_no_complete
  intro hnone
  obtain ⟨-, -, -, -, hprops⟩ := runEngramBranch_ok_spec llm embed obs hnone
  exact (hprops e he).2 hllm

/-- C5 witness: scenario S3 — a language model that returns no index texts
makes the per-engram task fail and no ENGRAM_COMPLETE appears. -/
theorem empty_index_array_fatal_witness :
    engramS1 ∈ obsS1.engram_list
    ∧ (∃ msg, genIndices (fun _ => ([] : List String)) "src-1" engramS1 = .error msg)
    ∧ (runEngramBranch (fun _ => []) embedStub [] obsS1).msgs.filter
        Message.isEngramComplete = [] :=
  ⟨by decide,
   (empty_index_array_fatal (fun _ => []) embedStub obsS1 engramS1 (by decide) rfl).1,
   (empty_index_array_fatal (fun _ => []) embedStub obsS1 engramS1 (by decide) rfl).2⟩

/-- C6: under the precondition that the embedding plugin returns one vector
per input string, the summary-embedding task fails exactly when
`meta.summary_full` is missing; when present, META_COMPLETE is emitted with
`summary_full.embedding` set (non-null) to the first returned vector; on
failure no META_COMPLETE is emitted and the engram branch is unchanged, so
it can still emit ENGRAM_COMPLETE. -/
theorem summary_embedding_spec (llm : Engram → List String)
    (embed : List String → List (List ℚ)) (b0 : Builder) (obs : Observation)
    (hlen : ∀ l, (embed l).length = l.length) :
    ((generateSummaryEmbeddings embed obs).2 ≠ none ↔ obs.meta.summary_full = none)
    ∧ (∀ sf, obs.meta.summary_full = some sf →
        ∃ v vs, embed [sf.text] = v :: vs
          ∧ (generateSummaryEmbeddings embed obs).1
            = [Message.metaComplete
                { obs.meta with summary_full := some { sf with embedding := some v } }])
    ∧ (obs.meta.summary_full = none →
        (generateSummaryEmbeddings embed obs).1.filter Message.isMetaComplete = []
          ∧ (onObservationComplete llm embed b0 obs).2
              = runEngramBranch llm embed b0 obs) := by
  have hcons : ∀ sf, obs.meta.summary_full = some sf →
      ∃ v vs, embed [sf.text] = v :: vs := by
    intro sf hsf
    cases hv : embed [sf.text] with
    | nil =>
      have := hlen [sf.text]
      rw [hv] at this
      simp at this
    | cons v vs => exact ⟨v, vs, rfl⟩
  refine ⟨⟨?_, ?_⟩, ?_, ?_⟩
  · intro h2
    cases hsf : obs.meta.summary_full with
    | none => rfl
    | some sf =>
      obtain ⟨v, vs, hv⟩ := hcons sf hsf
      exact absurd (by simp [generateSummaryEmbeddings, hsf, hv]) h2
  · intro hsf
    simp [generateSummaryEmbeddings, hsf]
  · intro sf hsf
    obtain ⟨v, vs, hv⟩ := hcons sf hsf
    exact ⟨v, vs, hv, by simp [generateSummaryEmbeddings, hsf, hv]⟩
  · intro hsf
    exact ⟨by simp [generateSummaryEmbeddings, hsf], rfl⟩

/-- C6 witness: the scenario-S1 meta has a summary, so the summary branch
emits META_COMPLETE with the first stub vector attached as the embedding. -/
theorem summary_embedding_spec_witness :
    (∀ l, (embedStub l).length = l.length)
    ∧ ∃ v vs, embedStub ["summary text"] = v :: vs
        ∧ (generateSummaryEmbeddings embedStub obsS1).1
          = [Message.metaComplete ⟨"m-1", ["loc-a"], ["src-a"], ["kw"],
              some "initial summary", some ⟨"summary text", some v, "ix-1"⟩⟩] := by
  have hlen : ∀ l, (embedStub l).length = l.length := fun l => by simp [embedStub]
  exact ⟨hlen, (summary_embedding_spec llmStub embedStub [] obsS1 hlen).2.1
    ⟨"summary text", none, "ix-1"⟩ rfl⟩

/-- C7: each engram id appears at most once in `engram_builder` during the
consolidation of one observation (the registered ids are duplicate-free),
and on ENGRAM_COMPLETE every id of the observation is deleted, so starting
from the empty between-observations builder the final builder is empty. -/
theorem engram_builder_emptied (llm : Engram → List String)
    (embed : List String → List (List ℚ)) (obs : Observation)
    (h : (runEngramBranch llm embed [] obs).error = none) :
    (obs.engram_list.map (fun e => e.id)).Nodup
    ∧ (runEngramBranch llm embed [] obs).builder = [] := by
  obtain ⟨-, hb, hnodup, -, -⟩ := runEngramBranch_ok_spec llm embed obs h
  exact ⟨hnodup, hb⟩

/-- C7 witness: the scenario-S1 run completes and leaves the builder empty. -/
theorem engram_builder_emptied_witness :
    (runEngramBranch llmStub embedStub [] obsS1).error = none
    ∧ (runEngramBranch llmStub embedStub [] obsS1).builder = [] :=
  ⟨rfl, (engram_builder_emptied llmStub embedStub obsS1 rfl).2⟩

/-- C8: under the precondition that the embedding plugin returns exactly one
vector per input string, all of the plugin's fixed positive dimensionality
`D`, every engram carried by an emitted ENGRAM_COMPLETE message has a
non-null context and a non-empty indices list, each index holding a
non-empty embedding vector of length `D`. -/
theorem emitted_engrams_wellformed (llm : Engram → List String)
    (embed : List String → List (List ℚ)) (D : Nat) (obs : Observation)
    (hlen : ∀ l, (embed l).length = l.length)
    (hdim : ∀ l, ∀ v ∈ embed l, v.length = D) (hD : 0 < D)
    (h : (runEngramBranch llm embed [] obs).error = none) :
    ∀ m ∈ (runEngramBranch llm embed [] obs).msgs, ∀ sid arr,
      m = Message.engramComplete sid arr →
      ∀ e ∈ arr, e.context ≠ none
        ∧ ∃ ixs, e.indices = some ixs ∧ ixs ≠ []
          ∧ ∀ ix ∈ ixs, ∃ v, ix.embedding = some v ∧ v.length = D ∧ v ≠ [] := by
  obtain ⟨hfilter, -, -, -, hprops⟩ := runEngramBranch_ok_spec llm embed obs h
  intro m hm sid arr hmeq e hearr
  have hmf : m ∈ (runEngramBranch llm embed [] obs).msgs.filter
      Message.isEngramComplete :=
    List.mem_filter.mpr ⟨hm, by rw [hmeq]; rfl⟩
  rw [hfilter, List.mem_singleton] at hmf
  rw [hmf] at hmeq
  injection hmeq with hsid harr
  rw [← harr] at hearr
  obtain ⟨e0, he0, rfl⟩ := List.mem_map.mp hearr
  have hctx : e0.context ≠ none := (hprops e0 he0).1
  have hllm : llm e0 ≠ [] := (hprops e0 he0).2
  have hlt : 0 < (indexTexts llm e0).length := by
    cases hc : e0.context with
    | none => exact absurd hc hctx
    | some ctx =>
      simp only [indexTexts, hc, List.length_map]
      exact List.length_pos.mpr hllm
  refine ⟨hctx, List.zipWith (fun t v => Index.mk t (some v) "") (indexTexts llm e0)
    (embed (indexTexts llm e0)), rfl, ?_, ?_⟩
  · intro hnil
    have hlen0 := congrArg List.length hnil
    rw [List.length_zipWith, hlen (indexTexts llm e0), Nat.min_self] at hlen0
    simp only [List.length_nil] at hlen0
    omega
  · intro ix hix
    obtain ⟨t, v, hv, rfl⟩ := mem_zipWith_mkIndex hix
    have hvD := hdim (indexTexts llm e0) v hv
    refine ⟨v, rfl, hvD, ?_⟩
    intro hvnil
    rw [hvnil] at hvD
    simp only [List.length_nil] at hvD
    omega

/-- C8 witness: the engram emitted in the scenario-S1 run is well-formed. -/
theorem emitted_engrams_wellformed_witness :
    (enrichEngram llmStub embedStub engramS1).context ≠ none := by
  have hlen : ∀ l, (embedStub l).length = l.length := fun l => by simp [embedStub]
  have hdim : ∀ l, ∀ v ∈ embedStub l, v.length = 2 := by
    intro l v hv
    obtain ⟨-, -, rfl⟩ := List.mem_map.mp hv
    rfl
  exact (emitted_engrams_wellformed llmStub embedStub 2 obsS1 hlen hdim (by omega) rfl
    (Message.engramComplete "src-1" [enrichEngram llmStub embedStub engramS1])
    (by decide) "src-1" [enrichEngram llmStub embedStub engramS1] rfl
    (enrichEngram llmStub embedStub engramS1) (List.mem_singleton.mpr rfl)).1

end Engramic
